import Mathlib

/-!
# Verification of FileConcat (`script.py`)

A shallow embedding of the FileConcat tool: `load_gitignore`,
`should_process_file`, `concatenate_directory` and `split_concatenated_file`
from `script.py`, together with proofs about the claims of the specification.

Python strings are modelled as `List Char` (`PyStr`); the directory tree is an
inductive `FS` whose entry lists appear in filesystem listing order (the order
`os.scandir`/`os.walk` reports, which the program does not sort).  File
contents are `Option PyStr`: `none` models a file whose read raises.  The
`.gitignore` file of the root is passed explicitly as `Option (Option PyStr)`:
`none` = absent, `some none` = present but unreadable, `some (some c)` =
readable with content `c`.
-/

namespace FileConcat

/-- Python strings are sequences of code points. -/
abbrev PyStr := List Char

/-- `startsWith pat s` is Python's `s.startswith(pat)` (`pat` a plain string). -/
def startsWith : PyStr → PyStr → Bool
  | [], _ => true
  | _ :: _, [] => false
  | a :: pr, b :: sr => a = b && startsWith pr sr

/-- Whether the character `c` occurs in `s`. -/
def containsChar (c : Char) : PyStr → Bool
  | [] => false
  | a :: r => a = c || containsChar c r

/-- Python's substring test `pat in s`. -/
def hasSubB (pat : PyStr) : PyStr → Bool
  | [] => startsWith pat []
  | a :: rest => startsWith pat (a :: rest) || hasSubB pat rest

/-- The whitespace class stripped by Python's `str.strip`/`str.rstrip`
(ASCII whitespace plus the Unicode space characters). -/
def isPySpace (c : Char) : Bool :=
  c = ' ' || c = '\t' || c = '\n' || c = '\r' || c = '\x0b' || c = '\x0c' ||
  c = '\x1c' || c = '\x1d' || c = '\x1e' || c = '\x1f' || c = '\x85' ||
  c = ' ' || c = ' ' || (' ' ≤ c && c ≤ ' ') ||
  c = ' ' || c = ' ' || c = ' ' || c = ' ' || c = '　'

/-- Python's `str.lstrip()`. -/
def pyLstrip : PyStr → PyStr
  | [] => []
  | c :: r => if isPySpace c then pyLstrip r else c :: r

/-- Python's `str.rstrip()`. -/
def pyRstrip (s : PyStr) : PyStr := (pyLstrip s.reverse).reverse

/-- Python's `str.strip()`. -/
def pyStrip (s : PyStr) : PyStr := pyRstrip (pyLstrip s)

/-- Split a string on every occurrence of a single character (Python's
`str.split(c)` for a one-character separator; also how a path string is cut
into `/`-separated segments). -/
def splitChar (sep : Char) : PyStr → List PyStr
  | [] => [[]]
  | c :: r =>
    if c = sep then [] :: splitChar sep r
    else
      match splitChar sep r with
      | h :: t => (c :: h) :: t
      | [] => [[c]]

/-- Join path segments with `/` (how `str(PurePosixPath)` renders a relative
path built from components). -/
def joinSlash : List PyStr → PyStr
  | [] => []
  | [p] => p
  | p :: rest => p ++ '/' :: joinSlash rest

/-- Python's string `<` (lexicographic by code point). -/
def pyStrLt : PyStr → PyStr → Bool
  | [], [] => false
  | [], _ :: _ => true
  | _ :: _, [] => false
  | a :: as, b :: bs =>
    if a < b then true
    else if b < a then false
    else pyStrLt as bs

/-- Python's `str.split("\n", 1)`: cut at the first newline, or `none` when the
string holds no newline (where the Python code catches `ValueError`). -/
def breakAtNewline : PyStr → Option (PyStr × PyStr)
  | [] => none
  | c :: r =>
    if c = '\n' then some ([], r)
    else (breakAtNewline r).map (fun pr => (c :: pr.1, pr.2))

/-- Find index of the last `'.'` in a name, if any. -/
def rfindDot : PyStr → Option Nat
  | [] => none
  | c :: rest =>
    match rfindDot rest with
    | some i => some (i + 1)
    | none => if c = '.' then some 0 else none

/-- `pathlib.PurePath.suffix` of a file name: the extension including its dot,
empty when the only dot is leading or trailing or there is none. -/
def pySuffix (name : PyStr) : PyStr :=
  match rfindDot name with
  | some i => if 0 < i ∧ i + 1 < name.length then name.drop i else []
  | none => []

/-! ## Gitignore pattern matching

`script.py` delegates matching to the third-party `pathspec` library
(`PathSpec.from_lines(GitWildMatchPattern, patterns)` /
`spec.match_file(relative_path)`), which is not part of this repository.
The matcher below is modelled from the spec. -/

/-- Glob matching of one pattern segment against one path segment, with fuel
(`*` matches any run of characters, `?` any single character). -/
def globSeg : Nat → PyStr → PyStr → Bool
  | 0, _, _ => false
  | fuel + 1, pat, s =>
    match pat, s with
    | [], [] => true
    | [], _ :: _ => false
    | '*' :: pr, t =>
      globSeg fuel pr t ||
        (match t with
         | [] => false
         | _ :: sr => globSeg fuel ('*' :: pr) sr)
    | '?' :: pr, _ :: sr => globSeg fuel pr sr
    | c :: pr, d :: sr => c = d && globSeg fuel pr sr
    | _ :: _, [] => false

/-- Glob matching of a pattern segment against a path segment. -/
def globMatch (pat s : PyStr) : Bool :=
  globSeg (pat.length + s.length + 1) pat s

/-- Does any segment of the path match the glob? (An unanchored single-segment
pattern matches a path when some component matches it; everything below a
matched component is matched as well, which any later component covers.) -/
def anySegMatch (g : PyStr) : List PyStr → Bool
  | [] => false
  | s :: r => globMatch g s || anySegMatch g r

/-- Does a non-final segment of the path match the glob? (Directory-only
patterns need matched content strictly below the matched directory, so on a
file path the matched component cannot be the last one.) -/
def anyNonLastSegMatch (g : PyStr) : List PyStr → Bool
  | [] => false
  | [_] => false
  | s :: r => globMatch g s || anyNonLastSegMatch g r

/-- Anchored matching of pattern segments against a prefix of the path
segments, with fuel; `**` matches any run of whole segments.  When `dirOnly`
is set, the pattern must match a proper prefix (something of the path must
remain below the matched directory). -/
def segsAnchoredGo : Nat → Bool → List PyStr → List PyStr → Bool
  | 0, _, _, _ => false
  | fuel + 1, dirOnly, pats, segs =>
    match pats with
    | [] => if dirOnly then !segs.isEmpty else true
    | p :: pr =>
      if p = ['*', '*'] then
        segsAnchoredGo fuel dirOnly pr segs ||
          (match segs with
           | [] => false
           | _ :: sr => segsAnchoredGo fuel dirOnly (p :: pr) sr)
      else
        match segs with
        | [] => false
        | s :: sr => globMatch p s && segsAnchoredGo fuel dirOnly pr sr

/-- A parsed gitignore pattern. -/
structure GitPattern where
  negated : Bool
  dirOnly : Bool
  anchored : Bool
  segs : List PyStr
  deriving DecidableEq, Repr

/-- Modelled from the spec: gitignore pattern parsing (the `pathspec` library
used by `script.py` is not part of the repository).  A leading `!` negates
(re-includes), a trailing `/` makes the pattern directory-only, a `/` anywhere
else anchors the pattern to the base directory. -/
def parseGitPattern (raw : PyStr) : GitPattern :=
  let negated := startsWith ['!'] raw
  let p1 := if negated then raw.drop 1 else raw
  let dirOnly := p1.getLast? = some '/'
  let p2 := if dirOnly then p1.dropLast else p1
  let leadSlash := startsWith ['/'] p2
  let p3 := if leadSlash then p2.drop 1 else p2
  let anchored := leadSlash || containsChar '/' p3
  { negated := negated, dirOnly := dirOnly, anchored := anchored,
    segs := splitChar '/' p3 }

/-- Modelled from the spec: does one gitignore pattern match the given path
segments (the path names a file)? -/
def matchPattern (pat : GitPattern) (segs : List PyStr) : Bool :=
  match pat.segs with
  | [g] =>
    if pat.anchored then
      segsAnchoredGo (1 + segs.length + 1) pat.dirOnly [g] segs
    else if pat.dirOnly then anyNonLastSegMatch g segs
    else anySegMatch g segs
  | ps => segsAnchoredGo (ps.length + segs.length + 1) pat.dirOnly ps segs

/-- Modelled from the spec: `PathSpec.match_file` — the path (a `/`-separated
relative path string) is matched when the last pattern matching it is not
negated. -/
def matchFileStr (pats : List GitPattern) (path : PyStr) : Bool :=
  let segs := splitChar '/' path
  pats.foldl (fun acc p => if matchPattern p segs then !p.negated else acc) false

/-! ## The ignore-rule loader (`load_gitignore`) -/

/-- The hard-coded fallback pattern list of `load_gitignore`. -/
def DEFAULT_IGNORE : List PyStr :=
  [".git/".toList, "__pycache__/".toList, "node_modules/".toList,
   "*.pyc".toList, "*.pyo".toList, "*.pyd".toList, ".Python".toList,
   ".env".toList, ".venv/".toList, "env/".toList, "venv/".toList,
   ".idea/".toList, ".vscode/".toList]

/-- The usable pattern lines of a `.gitignore` text: each line whose strip is
non-empty and whose raw text does not start with `#`, stripped. -/
def gitignoreUsableLines (content : PyStr) : List PyStr :=
  (splitChar '\n' content).filterMap fun line =>
    if pyStrip line ≠ [] && !startsWith ['#'] line then some (pyStrip line)
    else none

/-- `load_gitignore`: read `.gitignore` when present and readable (an
unreadable file only logs a warning and leaves the pattern list empty), fall
back to `DEFAULT_IGNORE` when no pattern was collected, and compile. -/
def load_gitignore (gitignoreFile : Option (Option PyStr)) : List GitPattern :=
  let patterns : List PyStr :=
    match gitignoreFile with
    | some (some content) => gitignoreUsableLines content
    | some none => []
    | none => []
  let patterns := if patterns = [] then DEFAULT_IGNORE else patterns
  patterns.map parseGitPattern

/-! ## The filter predicate (`should_process_file`) -/

/-- `should_process_file(path, base_dir, spec)`: keep the path unless its base
name starts with `.` or its base-relative path matches the ignore rules. -/
def should_process_file (name relPath : PyStr) (spec : List GitPattern) : Bool :=
  !(startsWith ['.'] name || matchFileStr spec relPath)

/-! ## The directory tree and `os.walk` -/

/-- A directory's entry list, in filesystem listing order.  `fileE name content
rest` is a file entry (content `none` models a file whose read raises);
`dirE name sub rest` a subdirectory entry. -/
inductive FS where
  | nilE : FS
  | fileE (name : PyStr) (content : Option PyStr) (rest : FS) : FS
  | dirE (name : PyStr) (sub : FS) (rest : FS) : FS

/-- The file entries of one directory level, in listing order. -/
def filesOf : FS → List (PyStr × Option PyStr)
  | .nilE => []
  | .fileE n c r => (n, c) :: filesOf r
  | .dirE _ _ r => filesOf r

/-- The frames `os.walk` yields for the subdirectory entries of one level:
depth-first, top-down, in listing order. -/
def walkEntries (rel : List PyStr) : FS → List (List PyStr × List (PyStr × Option PyStr))
  | .nilE => []
  | .fileE _ _ r => walkEntries rel r
  | .dirE n sub r =>
    ((rel ++ [n], filesOf sub) :: walkEntries (rel ++ [n]) sub) ++ walkEntries rel r

/-- `os.walk(directory)`: the root's frame followed by the frames of every
subdirectory, top-down.  Each frame is the directory's base-relative component
path plus its file list; the walk never prunes (the code discards the `dirs`
list instead of editing it in place). -/
def osWalk (fs : FS) : List (List PyStr × List (PyStr × Option PyStr)) :=
  ([], filesOf fs) :: walkEntries [] fs

/-- The relative-path string `str(path.relative_to(base))`: `"."` for the base
itself, otherwise the `/`-joined components. -/
def relStrOf (rel : List PyStr) : PyStr :=
  match rel with
  | [] => ['.']
  | _ => joinSlash rel

/-- `Path(root).name`: the last component, or the base directory's own name for
the walk's root frame. -/
def dirNameOf (base : PyStr) (rel : List PyStr) : PyStr :=
  (rel.getLast?).getD base

/-! ## The concatenator (`concatenate_directory`) -/

/-- The default extension allow-list of `concatenate_directory`. -/
def DEFAULT_EXTENSIONS : List PyStr :=
  [".py".toList, ".js".toList, ".ts".toList, ".jsx".toList, ".tsx".toList,
   ".css".toList, ".scss".toList, ".html".toList]

/-- The effective allow-list: `None` becomes the default list. -/
def extsOf (allowed_extensions : Option (List PyStr)) : List PyStr :=
  allowed_extensions.getD DEFAULT_EXTENSIONS

/-- The extension filter of the concatenation loop: a file is skipped when the
allow-list is non-empty and does not hold the file's suffix
(`if allowed_extensions and file_path.suffix not in allowed_extensions`). -/
def extAllows (exts : List PyStr) (name : PyStr) : Bool :=
  !(!exts.isEmpty && !exts.contains (pySuffix name))

/-- One output section: `"\n// File: {relative_path}\n"`, the file content,
`"\n"`. -/
def fileSection (relPath content : PyStr) : PyStr :=
  "\n// File: ".toList ++ relPath ++ '\n' :: (content ++ ['\n'])

/-- The output the concatenation loop emits for one file entry of a kept
directory: nothing when the filter predicate or the extension filter rejects
it or its read raises (the error is only logged), else its section. -/
def fileOutput (spec : List GitPattern) (exts : List PyStr) (rel : List PyStr)
    (nc : PyStr × Option PyStr) : PyStr :=
  if !should_process_file nc.1 (relStrOf (rel ++ [nc.1])) spec then []
  else if !extAllows exts nc.1 then []
  else
    match nc.2 with
    | some content => fileSection (relStrOf (rel ++ [nc.1])) content
    | none => []

/-- Stable insertion into a name-sorted list (before the first entry whose name
is not smaller). -/
def insertByName (x : PyStr × Option PyStr) :
    List (PyStr × Option PyStr) → List (PyStr × Option PyStr)
  | [] => [x]
  | y :: ys => if pyStrLt y.1 x.1 then y :: insertByName x ys else x :: y :: ys

/-- Python's `sorted(files)`: the file names of one directory in ascending
code-point order (a stable sort, realised as insertion sort). -/
def sortByName : List (PyStr × Option PyStr) → List (PyStr × Option PyStr)
  | [] => []
  | x :: xs => insertByName x (sortByName xs)

/-- The output the concatenation loop emits for one walk frame: nothing when
the directory itself fails the filter predicate (`continue`), else the
sections of its kept files in sorted name order. -/
def frameOutput (spec : List GitPattern) (exts : List PyStr) (base : PyStr)
    (fr : List PyStr × List (PyStr × Option PyStr)) : PyStr :=
  if !should_process_file (dirNameOf base fr.1) (relStrOf fr.1) spec then []
  else (sortByName fr.2).flatMap (fileOutput spec exts fr.1)

/-- `concatenate_directory(directory, output_file, allowed_extensions)`: walk
the tree, filter, and join all emitted sections (`"".join(concatenated)`).
`base` is the base directory's own name (`Path(directory).name`), `g` the
state of `<directory>/.gitignore`. -/
def concatenate_directory (base : PyStr) (fs : FS)
    (g : Option (Option PyStr)) (allowed_extensions : Option (List PyStr)) : PyStr :=
  (osWalk fs).flatMap (frameOutput (load_gitignore g) (extsOf allowed_extensions) base)

/-- A filesystem write effect. -/
inductive FsEffect where
  | mkdirParents (path : PyStr) : FsEffect
  | write (path : PyStr) (content : PyStr) : FsEffect
  deriving DecidableEq, Repr

/-- `concatenate_directory` with its optional output-file write: the document
is computed first; when an output path is given a write of it is attempted
(and its failure only logged), and the document is returned either way. -/
def concatenate_directory_run (base : PyStr) (fs : FS)
    (g : Option (Option PyStr)) (allowed_extensions : Option (List PyStr))
    (output_file : Option PyStr) (writeOk : Bool) : PyStr × List FsEffect :=
  let final_content := concatenate_directory base fs g allowed_extensions
  (final_content,
    match output_file with
    | none => []
    | some p => if writeOk then [FsEffect.write p final_content] else [])

/-! ## The splitter (`split_concatenated_file`) -/

/-- The section delimiter `"\n// File: "` the splitter cuts on. -/
def MARKER : PyStr := "\n// File: ".toList

/-- The marker without its leading newline (`"// File: "`). -/
def MARKER_TAIL : PyStr := "// File: ".toList

/-- One step-bounded pass of Python's `content.split("\n// File: ")`:
leftmost, non-overlapping. -/
def splitMarkerGo : Nat → PyStr → List PyStr
  | 0, s => [s]
  | fuel + 1, s =>
    match s with
    | [] => [[]]
    | a :: rest =>
      if startsWith MARKER (a :: rest) then
        [] :: splitMarkerGo fuel ((a :: rest).drop MARKER.length)
      else
        match splitMarkerGo fuel rest with
        | h :: t => (a :: h) :: t
        | [] => [[a]]

/-- Python's `content.split("\n// File: ")`. -/
def splitMarker (s : PyStr) : List PyStr :=
  splitMarkerGo (s.length + 1) s

/-- The chunk list the splitter iterates: the split pieces, with the first
dropped when its strip is empty. -/
def chunksOf (content : PyStr) : List PyStr :=
  match splitMarker content with
  | [] => []
  | f :: rest => if pyStrip f = [] then rest else f :: rest

/-- `Path(output_dir) / file_path`: an absolute `file_path` replaces the base,
an empty one leaves it unchanged, otherwise the two are joined with `/`. -/
def pathJoin (base p : PyStr) : PyStr :=
  if startsWith ['/'] p then p
  else if p = [] then base
  else base ++ '/' :: p

/-- `Path(p).parent` as a string: the text before the last `/`, or `.`. -/
def parentDir (p : PyStr) : PyStr :=
  let segs := splitChar '/' p
  match segs.dropLast with
  | [] => ['.']
  | parts => joinSlash parts

/-- The per-chunk loop of the splitter: a chunk with no newline is skipped
silently; otherwise the parent directories of `output_dir / path` are created
and the rstripped rest is written there (a write failure is only logged, so
the attempt is recorded and the loop continues). -/
def processChunks (output_dir : PyStr) (chunks : List PyStr) : List FsEffect :=
  chunks.flatMap fun chunk =>
    match breakAtNewline chunk with
    | none => []
    | some (p, rest) =>
      [FsEffect.mkdirParents (parentDir (pathJoin output_dir p)),
       FsEffect.write (pathJoin output_dir p) (pyRstrip rest)]

/-- `split_concatenated_file(input_file, output_dir)`: `input` is the read
input document (`none` models a read failure, which logs and returns with no
effects); otherwise split on the marker, drop a blank first chunk, and process
every chunk. -/
def split_concatenated_file (input : Option PyStr) (output_dir : PyStr) : List FsEffect :=
  match input with
  | none => []
  | some content => processChunks output_dir (chunksOf content)

/-- The write effects of an effect list. -/
def writesOf (effects : List FsEffect) : List (PyStr × PyStr) :=
  effects.filterMap fun e =>
    match e with
    | FsEffect.write p c => some (p, c)
    | FsEffect.mkdirParents _ => none

/-! ## Derived notions used by the statements -/

/-- The chunk a `(relative path, content)` pair contributes between two
markers: `path`, newline, content, newline. -/
def chunkOfPC (pc : PyStr × PyStr) : PyStr :=
  pc.1 ++ '\n' :: (pc.2 ++ ['\n'])

/-- The document of a list of `(relative path, content)` pairs: the
concatenation of their sections. -/
def docOf (L : List (PyStr × PyStr)) : PyStr :=
  L.flatMap fun pc => fileSection pc.1 pc.2

/-- The `(relative path, content)` pairs `concatenate_directory` keeps, in
emission order. -/
def includedList (spec : List GitPattern) (exts : List PyStr) (base : PyStr)
    (fs : FS) : List (PyStr × PyStr) :=
  (osWalk fs).flatMap fun fr =>
    if !should_process_file (dirNameOf base fr.1) (relStrOf fr.1) spec then []
    else
      (sortByName fr.2).filterMap fun nc =>
        if should_process_file nc.1 (relStrOf (fr.1 ++ [nc.1])) spec &&
            extAllows exts nc.1 then
          nc.2.map fun c => (relStrOf (fr.1 ++ [nc.1]), c)
        else none

/-- All readable `(relative path, content)` pairs of the tree, in walk order
with names sorted inside each directory. -/
def allFilesOf (fs : FS) : List (PyStr × PyStr) :=
  (osWalk fs).flatMap fun fr =>
    (sortByName fr.2).filterMap fun nc =>
      nc.2.map fun c => (relStrOf (fr.1 ++ [nc.1]), c)

/-- A file content that is readable and cannot collide with the marker: it
neither contains `"\n// File: "` nor begins with `"// File: "`. -/
def contentOk : Option PyStr → Bool
  | none => false
  | some c => !hasSubB MARKER c && !startsWith MARKER_TAIL c

/-- The tree with every unreadable file entry removed. -/
def removeUnreadable : FS → FS
  | .nilE => .nilE
  | .fileE n (some c) r => .fileE n (some c) (removeUnreadable r)
  | .fileE _ none r => removeUnreadable r
  | .dirE n sub r => .dirE n (removeUnreadable sub) (removeUnreadable r)

/-- Modelled from the spec: lexical POSIX resolution of `.` and `..`
components of a relative path (how the operating system resolves the write
target the splitter builds). -/
def resolveSegs (stack : List PyStr) : List PyStr → List PyStr
  | [] => stack.reverse
  | s :: r =>
    if s = "..".toList then resolveSegs (stack.drop 1) r
    else if s = ['.'] || s = [] then resolveSegs stack r
    else resolveSegs (s :: stack) r

/-- The resolved segment list of a path string. -/
def resolvePath (p : PyStr) : List PyStr :=
  resolveSegs [] (splitChar '/' p)

end FileConcat

/-! ## Lemmas about the marker split -/

namespace FileConcat

theorem startsWith_append_self (p t : PyStr) : startsWith p (p ++ t) = true := by
  induction p with
  | nil => rfl
  | cons a pr ih => simp [startsWith, ih]

theorem startsWith_length_le {p s : PyStr} (h : startsWith p s = true) :
    p.length ≤ s.length := by
  induction p generalizing s with
  | nil => simp
  | cons a pr ih =>
    cases s with
    | nil => simp [startsWith] at h
    | cons b sr =>
      simp only [startsWith, Bool.and_eq_true] at h
      have := ih h.2
      simp only [List.length_cons]
      omega

theorem startsWith_append_cases {pat ch rest : PyStr}
    (h : startsWith pat (ch ++ rest) = true) :
    startsWith pat ch = true ∨
      (ch.length < pat.length ∧ startsWith (pat.drop ch.length) rest = true) := by
  induction pat generalizing ch with
  | nil => exact Or.inl rfl
  | cons x pr ih =>
    cases ch with
    | nil =>
      refine Or.inr ⟨by simp, ?_⟩
      simpa using h
    | cons y ch' =>
      simp only [List.cons_append, startsWith, Bool.and_eq_true] at h
      rcases ih h.2 with h1 | ⟨hlt, hsw⟩
      · exact Or.inl (by simp [startsWith, h.1, h1])
      · refine Or.inr ⟨by simpa using hlt, ?_⟩
        simpa using hsw

theorem marker_cons : MARKER = '\n' :: MARKER_TAIL := by decide

theorem marker_length : MARKER.length = 10 := by decide

theorem marker_drop_head :
    ∀ k, k < 10 → 1 ≤ k → (MARKER.drop k).head? ≠ some '\n' := by decide

theorem sw_marker_span {ch : PyStr} (t : PyStr)
    (h : startsWith MARKER ch = false) (hne : ch ≠ []) :
    startsWith MARKER (ch ++ (MARKER ++ t)) = false := by
  by_contra hc
  rw [Bool.not_eq_false] at hc
  rcases startsWith_append_cases hc with h1 | ⟨hlt, hsw⟩
  · rw [h] at h1
    exact Bool.false_ne_true h1
  · have hk1 : 1 ≤ ch.length := by
      cases ch with
      | nil => exact absurd rfl hne
      | cons _ _ => simp
    rw [marker_length] at hlt
    have hlen : (MARKER.drop ch.length).length = 10 - ch.length := by
      simp [marker_length]
    cases hd : MARKER.drop ch.length with
    | nil => rw [hd] at hlen; simp at hlen; omega
    | cons a as =>
      rw [hd] at hsw
      have hMt : MARKER ++ t = '\n' :: (MARKER_TAIL ++ t) := by
        rw [marker_cons]; rfl
      rw [hMt] at hsw
      simp only [startsWith, Bool.and_eq_true, decide_eq_true_eq] at hsw
      have hh := marker_drop_head ch.length hlt hk1
      rw [hd] at hh
      simp [hsw.1] at hh

theorem splitMarkerGo_fuel :
    ∀ f₁ f₂ s, s.length < f₁ → s.length < f₂ →
      splitMarkerGo f₁ s = splitMarkerGo f₂ s := by
  intro f₁
  induction f₁ with
  | zero => intro f₂ s h _; omega
  | succ g ih =>
    intro f₂ s h1 h2
    cases f₂ with
    | zero => omega
    | succ f
    =>
      cases s with
      | nil => rfl
      | cons a rest =>
        simp only [splitMarkerGo]
        by_cases hsw : startsWith MARKER (a :: rest) = true
        · have hle := startsWith_length_le hsw
          rw [marker_length] at hle
          have hl : ((a :: rest).drop MARKER.length).length < g := by
            simp only [List.length_drop, List.length_cons, marker_length] at *
            omega
          have hl2 : ((a :: rest).drop MARKER.length).length < f := by
            simp only [List.length_drop, List.length_cons, marker_length] at *
            omega
          rw [hsw]
          simp only [if_true]
          rw [ih f _ hl hl2]
        · rw [Bool.not_eq_true] at hsw
          rw [hsw]
          simp only [Bool.false_eq_true, if_false]
          have hl : rest.length < g := by
            simp only [List.length_cons] at h1
            omega
          have hl2 : rest.length < f := by
            simp only [List.length_cons] at h2
            omega
          rw [ih f _ hl hl2]

theorem splitMarkerGo_marker (f : Nat) (t : PyStr)
    (hf : (MARKER ++ t).length < f) :
    splitMarkerGo f (MARKER ++ t) = [] :: splitMarker t := by
  cases f with
  | zero => omega
  | succ g =>
    have hMt : MARKER ++ t = '\n' :: (MARKER_TAIL ++ t) := by
      rw [marker_cons]; rfl
    rw [hMt]
    simp only [splitMarkerGo]
    rw [← hMt, startsWith_append_self]
    simp only [if_true]
    rw [List.drop_left]
    unfold splitMarker
    rw [splitMarkerGo_fuel g (t.length + 1) t
      (by simp only [List.length_append, marker_length] at hf; omega) (by omega)]

theorem splitMarker_marker (t : PyStr) :
    splitMarker (MARKER ++ t) = [] :: splitMarker t := by
  unfold splitMarker
  exact splitMarkerGo_marker _ t (by omega)

theorem splitMarkerGo_nosub :
    ∀ f s, s.length < f → hasSubB MARKER s = false → splitMarkerGo f s = [s] := by
  intro f
  induction f with
  | zero => intro s h _; omega
  | succ g ih =>
    intro s h1 h2
    cases s with
    | nil => rfl
    | cons a rest =>
      simp only [hasSubB, Bool.or_eq_false_iff] at h2
      simp only [splitMarkerGo, h2.1]
      simp only [Bool.false_eq_true, if_false]
      rw [ih rest (by simp only [List.length_cons] at h1; omega) h2.2]

theorem splitMarker_nosub {s : PyStr} (h : hasSubB MARKER s = false) :
    splitMarker s = [s] :=
  splitMarkerGo_nosub _ s (by omega) h

theorem splitMarker_chunk :
    ∀ f ch t, (ch ++ (MARKER ++ t)).length < f → hasSubB MARKER ch = false →
      splitMarkerGo f (ch ++ (MARKER ++ t)) = ch :: splitMarker t := by
  intro f
  induction f with
  | zero => intro ch t h _; omega
  | succ g ih =>
    intro ch t h1 h2
    cases ch with
    | nil => simpa using splitMarkerGo_marker (g + 1) t (by simpa using h1)
    | cons a ch' =>
      simp only [hasSubB, Bool.or_eq_false_iff] at h2
      have hspan := sw_marker_span t h2.1 (List.cons_ne_nil a ch')
      simp only [List.cons_append, splitMarkerGo]
      rw [show a :: (ch' ++ (MARKER ++ t)) = (a :: ch') ++ (MARKER ++ t) from rfl] at *
      rw [hspan]
      simp only [Bool.false_eq_true, if_false]
      rw [ih ch' t (by simp only [List.length_append, List.length_cons] at h1 ⊢; omega) h2.2]

end FileConcat

/-! ## Chunks are marker-free -/

namespace FileConcat

theorem startsWith_snoc_nl {pat : PyStr} (hp : containsChar '\n' pat = false) :
    ∀ s, startsWith pat (s ++ ['\n']) = startsWith pat s := by
  induction pat with
  | nil => intro s; rfl
  | cons a pr ih =>
    intro s
    simp only [containsChar, Bool.or_eq_false_iff] at hp
    cases s with
    | nil =>
      simp only [List.nil_append, startsWith, hp.1, Bool.false_and]
    | cons b s' =>
      simp only [List.cons_append, List.append_eq, startsWith, ih hp.2]

theorem sw_marker_snoc_nl : ∀ s, startsWith MARKER (s ++ ['\n']) = startsWith MARKER s := by
  intro s
  cases s with
  | nil => decide
  | cons b s' =>
    rw [marker_cons]
    simp only [List.cons_append, List.append_eq, startsWith]
    rw [startsWith_snoc_nl (by decide) s']

theorem hasSub_marker_snoc_nl : ∀ s, hasSubB MARKER (s ++ ['\n']) = hasSubB MARKER s := by
  intro s
  induction s with
  | nil => decide
  | cons a s' ih =>
    simp only [List.cons_append, List.append_eq, hasSubB]
    rw [show a :: (s' ++ ['\n']) = (a :: s') ++ ['\n'] from rfl,
      sw_marker_snoc_nl (a :: s'), ih]

theorem chunk_nosub {p c : PyStr} (hp : containsChar '\n' p = false)
    (hc1 : hasSubB MARKER c = false) (hc2 : startsWith MARKER_TAIL c = false) :
    hasSubB MARKER (p ++ '\n' :: (c ++ ['\n'])) = false := by
  induction p with
  | nil =>
    simp only [List.nil_append, hasSubB]
    rw [show ('\n' :: (c ++ ['\n'])) = ([] : PyStr) ++ '\n' :: (c ++ ['\n']) from rfl]
    rw [show startsWith MARKER (([] : PyStr) ++ '\n' :: (c ++ ['\n'])) =
      startsWith MARKER ('\n' :: (c ++ ['\n'])) from rfl]
    rw [marker_cons]
    simp only [startsWith, decide_True, Bool.true_and]
    rw [startsWith_snoc_nl (by decide) c, hc2]
    rw [show ('\n' :: MARKER_TAIL) = MARKER from marker_cons.symm]
    rw [hasSub_marker_snoc_nl c, hc1]
    rfl
  | cons a p' ih =>
    simp only [containsChar, Bool.or_eq_false_iff] at hp
    have ha : ¬('\n' = a) := by
      intro hcontra
      have := hp.1
      rw [← hcontra] at this
      simp at this
    simp only [List.cons_append, hasSubB]
    rw [marker_cons]
    simp only [startsWith, decide_eq_false ha, Bool.false_and, Bool.false_or]
    rw [show ('\n' :: MARKER_TAIL) = MARKER from marker_cons.symm]
    exact ih hp.2

theorem breakAtNewline_chunk {p : PyStr} (hp : containsChar '\n' p = false) (r : PyStr) :
    breakAtNewline (p ++ '\n' :: r) = some (p, r) := by
  induction p with
  | nil => simp [breakAtNewline]
  | cons a p' ih =>
    simp only [containsChar, Bool.or_eq_false_iff] at hp
    have ha : ¬(a = '\n') := by simpa using hp.1
    simp only [List.cons_append, List.append_eq, breakAtNewline, if_neg ha, ih hp.2,
      Option.map_some']

theorem breakAtNewline_none {c : PyStr} (h : containsChar '\n' c = false) :
    breakAtNewline c = none := by
  induction c with
  | nil => rfl
  | cons a r ih =>
    simp only [containsChar, Bool.or_eq_false_iff] at h
    have ha : ¬(a = '\n') := by simpa using h.1
    simp [breakAtNewline, if_neg ha, ih h.2]

theorem pyLstrip_nl (x : PyStr) : pyLstrip ('\n' :: x) = pyLstrip x := by
  simp [pyLstrip, show isPySpace '\n' = true by decide]

theorem pyRstrip_snoc_nl (c : PyStr) : pyRstrip (c ++ ['\n']) = pyRstrip c := by
  unfold pyRstrip
  rw [List.reverse_append]
  simp only [List.reverse_cons, List.reverse_nil, List.nil_append, List.singleton_append]
  rw [pyLstrip_nl]

theorem fileSection_eq (p c : PyStr) :
    fileSection p c = MARKER ++ chunkOfPC (p, c) := rfl

theorem docOf_nil : docOf [] = [] := rfl

theorem docOf_cons (pc : PyStr × PyStr) (R : List (PyStr × PyStr)) :
    docOf (pc :: R) = MARKER ++ (chunkOfPC pc ++ docOf R) := by
  simp only [docOf, List.flatMap_cons]
  rw [show fileSection pc.1 pc.2 = MARKER ++ chunkOfPC pc from rfl]
  rw [List.append_assoc]

end FileConcat

/-! ## Splitting a document recovers the chunks and writes -/

namespace FileConcat

theorem splitMarker_tail :
    ∀ (L : List (PyStr × PyStr)) (ch : PyStr), hasSubB MARKER ch = false →
      (∀ pc ∈ L, hasSubB MARKER (chunkOfPC pc) = false) →
      splitMarker (ch ++ docOf L) = ch :: L.map chunkOfPC := by
  intro L
  induction L with
  | nil =>
    intro ch h _
    simp only [docOf_nil, List.append_nil, List.map_nil]
    rw [splitMarker_nosub h]
  | cons pc R ih =>
    intro ch h hL
    rw [docOf_cons]
    unfold splitMarker
    rw [splitMarker_chunk _ ch (chunkOfPC pc ++ docOf R) (by omega) h]
    rw [ih (chunkOfPC pc) (hL pc (by simp)) (fun x hx => hL x (by simp [hx]))]
    simp

theorem writesOf_nil : writesOf [] = [] := rfl

theorem writesOf_append (e1 e2 : List FsEffect) :
    writesOf (e1 ++ e2) = writesOf e1 ++ writesOf e2 := by
  simp [writesOf]

theorem processChunks_chunks :
    ∀ (L : List (PyStr × PyStr)) (out : PyStr),
      (∀ pc ∈ L, containsChar '\n' pc.1 = false) →
      writesOf (processChunks out (L.map chunkOfPC)) =
        L.map fun pc => (pathJoin out pc.1, pyRstrip pc.2) := by
  intro L
  induction L with
  | nil => intro out _; rfl
  | cons pc R ih =>
    intro out h
    simp only [List.map_cons]
    show writesOf ((match breakAtNewline (chunkOfPC pc) with
      | none => []
      | some (p, rest) =>
        [FsEffect.mkdirParents (parentDir (pathJoin out p)),
         FsEffect.write (pathJoin out p) (pyRstrip rest)]) ++
      processChunks out (R.map chunkOfPC)) = _
    rw [show chunkOfPC pc = pc.1 ++ '\n' :: (pc.2 ++ ['\n']) from rfl]
    rw [breakAtNewline_chunk (h pc (by simp))]
    rw [writesOf_append, ih out (fun x hx => h x (by simp [hx]))]
    simp only [writesOf, List.filterMap]
    rw [pyRstrip_snoc_nl]
    rfl

theorem split_doc_writes (out : PyStr) (L : List (PyStr × PyStr))
    (h : ∀ pc ∈ L, containsChar '\n' pc.1 = false ∧ hasSubB MARKER pc.2 = false ∧
      startsWith MARKER_TAIL pc.2 = false) :
    writesOf (split_concatenated_file (some (docOf L)) out) =
      L.map fun pc => (pathJoin out pc.1, pyRstrip pc.2) := by
  have hchunks : ∀ pc ∈ L, hasSubB MARKER (chunkOfPC pc) = false := fun pc hpc =>
    chunk_nosub (h pc hpc).1 (h pc hpc).2.1 (h pc hpc).2.2
  cases L with
  | nil => rfl
  | cons pc R =>
    show writesOf (processChunks out (chunksOf (docOf (pc :: R)))) = _
    have hdoc : chunksOf (docOf (pc :: R)) = (pc :: R).map chunkOfPC := by
      unfold chunksOf
      rw [docOf_cons, splitMarker_marker]
      rw [splitMarker_tail R (chunkOfPC pc) (hchunks pc (by simp))
        (fun x hx => hchunks x (by simp [hx]))]
      simp [pyStrip, pyRstrip, pyLstrip]
    rw [hdoc]
    exact processChunks_chunks (pc :: R) out (fun x hx => (h x hx).1)

end FileConcat

/-! ## The concatenated document as a section list -/

namespace FileConcat

theorem insertByName_perm (x : PyStr × Option PyStr) :
    ∀ l, List.Perm (insertByName x l) (x :: l) := by
  intro l
  induction l with
  | nil => exact List.Perm.refl _
  | cons y ys ih =>
    unfold insertByName
    by_cases h : pyStrLt y.1 x.1 = true
    · rw [if_pos h]
      exact (ih.cons y).trans (List.Perm.swap x y ys)
    · rw [if_neg h]

theorem sortByName_perm : ∀ l, List.Perm (sortByName l) l := by
  intro l
  induction l with
  | nil => exact List.Perm.refl _
  | cons x xs ih =>
    unfold sortByName
    exact (insertByName_perm x (sortByName xs)).trans (ih.cons x)

theorem flatMap_fileOutput (spec : List GitPattern) (exts : List PyStr)
    (rel : List PyStr) :
    ∀ l : List (PyStr × Option PyStr),
      l.flatMap (fileOutput spec exts rel) =
        docOf (l.filterMap fun nc =>
          if should_process_file nc.1 (relStrOf (rel ++ [nc.1])) spec &&
              extAllows exts nc.1 then
            nc.2.map fun c => (relStrOf (rel ++ [nc.1]), c)
          else none) := by
  intro l
  induction l with
  | nil => rfl
  | cons nc l' ih =>
    simp only [List.flatMap_cons, List.filterMap_cons]
    by_cases h1 : should_process_file nc.1 (relStrOf (rel ++ [nc.1])) spec = true
    · by_cases h2 : extAllows exts nc.1 = true
      · cases hnc : nc.2 with
        | none => simp [fileOutput, h1, h2, hnc, ih]
        | some c => simp [fileOutput, h1, h2, hnc, ih, docOf]
      · simp only [Bool.not_eq_true] at h2
        simp [fileOutput, h1, h2, ih]
    · simp only [Bool.not_eq_true] at h1
      simp [fileOutput, h1, ih]

theorem concat_eq_doc (base : PyStr) (fs : FS) (g : Option (Option PyStr))
    (a : Option (List PyStr)) :
    concatenate_directory base fs g a =
      docOf (includedList (load_gitignore g) (extsOf a) base fs) := by
  unfold concatenate_directory includedList docOf
  rw [List.flatMap_assoc]
  apply List.flatMap_congr
  intro fr _
  by_cases hd : should_process_file (dirNameOf base fr.1) (relStrOf fr.1)
      (load_gitignore g) = true
  · simp only [frameOutput, hd, Bool.not_true, Bool.false_eq_true, if_false]
    exact flatMap_fileOutput _ _ _ _
  · simp only [Bool.not_eq_true] at hd
    simp [frameOutput, hd]

theorem included_eq_all (base : PyStr) (fs : FS) (spec : List GitPattern)
    (exts : List PyStr)
    (hdir : ∀ fr ∈ osWalk fs,
      should_process_file (dirNameOf base fr.1) (relStrOf fr.1) spec = true)
    (hfile : ∀ fr ∈ osWalk fs, ∀ nc ∈ fr.2,
      should_process_file nc.1 (relStrOf (fr.1 ++ [nc.1])) spec = true ∧
        extAllows exts nc.1 = true) :
    includedList spec exts base fs = allFilesOf fs := by
  unfold includedList allFilesOf
  apply List.flatMap_congr
  intro fr hfr
  simp only [hdir fr hfr, Bool.not_true, Bool.false_eq_true, if_false]
  apply List.filterMap_congr
  intro nc hnc
  have hnc' : nc ∈ fr.2 := (sortByName_perm fr.2).mem_iff.mp hnc
  rcases hfile fr hfr nc hnc' with ⟨h1, h2⟩
  simp [h1, h2]

theorem containsChar_append (ch : Char) (a b : PyStr) :
    containsChar ch (a ++ b) = (containsChar ch a || containsChar ch b) := by
  induction a with
  | nil => rfl
  | cons x a' ih => simp [containsChar, ih, Bool.or_assoc]

theorem joinSlash_no_nl :
    ∀ l : List PyStr, (∀ s ∈ l, containsChar '\n' s = false) →
      containsChar '\n' (joinSlash l) = false := by
  intro l
  induction l with
  | nil => intro _; rfl
  | cons p rest ih =>
    intro h
    cases rest with
    | nil => simpa using h p (by simp)
    | cons q rest' =>
      show containsChar '\n' (p ++ '/' :: joinSlash (q :: rest')) = false
      rw [containsChar_append]
      simp only [containsChar]
      rw [h p (by simp), ih (fun s hs => h s (by simp [hs]))]
      simp

theorem relStrOf_append (rel : List PyStr) (n : PyStr) :
    relStrOf (rel ++ [n]) = joinSlash (rel ++ [n]) := by
  cases rel <;> rfl

theorem mem_allFilesOf {fs : FS} {pc : PyStr × PyStr} (h : pc ∈ allFilesOf fs) :
    ∃ fr ∈ osWalk fs, ∃ nc ∈ fr.2, nc.2 = some pc.2 ∧
      pc.1 = relStrOf (fr.1 ++ [nc.1]) := by
  unfold allFilesOf at h
  rw [List.mem_flatMap] at h
  obtain ⟨fr, hfr, hmem⟩ := h
  rw [List.mem_filterMap] at hmem
  obtain ⟨nc, hnc, heq⟩ := hmem
  refine ⟨fr, hfr, nc, (sortByName_perm fr.2).mem_iff.mp hnc, ?_, ?_⟩
  · cases h2 : nc.2 with
    | none => rw [h2] at heq; simp at heq
    | some c =>
      rw [h2] at heq
      simp only [Option.map_some', Option.some.injEq] at heq
      rw [← heq]
  · cases h2 : nc.2 with
    | none => rw [h2] at heq; simp at heq
    | some c =>
      rw [h2] at heq
      simp only [Option.map_some', Option.some.injEq] at heq
      rw [← heq]

end FileConcat

/-! ## Claim C1: the round-trip property -/

namespace FileConcat

/-- C1 counterexample: the round-trip property fails as stated.  The single
file `a.py` with content `"// File: x\nhello"` is non-hidden, has an allowed
extension, matches no ignore rule and its content is free of the exact
substring `"\n// File: "`; yet the newline that frames its path line fuses
with the content's leading `"// File: "` into a marker occurrence, so
splitting the concatenated document writes one file named `x` with content
`hello` instead of reproducing `a.py`. -/
theorem c1_roundtrip_counterexample :
    writesOf (split_concatenated_file
        (some (concatenate_directory "proj".toList
          (FS.fileE "a.py".toList (some "// File: x\nhello".toList) FS.nilE)
          none none))
        "out".toList)
      = [("out/x".toList, "hello".toList)] ∧
    ("out/a.py".toList, pyRstrip "// File: x\nhello".toList) ∉
      writesOf (split_concatenated_file
        (some (concatenate_directory "proj".toList
          (FS.fileE "a.py".toList (some "// File: x\nhello".toList) FS.nilE)
          none none))
        "out".toList) := by
  constructor <;> decide

/-- C1 (amended): the round-trip property, with the precondition the format
actually needs: every walked directory passes the filter predicate and has
newline-free component names, and every file passes the filter and extension
checks, is readable, has a newline-free name, and has content that neither
contains `"\n// File: "` nor begins with `"// File: "`.  Then splitting the
concatenated document writes exactly the tree's files — same relative paths,
in walk order with names sorted per directory, each content equal to the
original up to one trailing-whitespace strip. -/
theorem c1_roundtrip_amended (base out : PyStr) (fs : FS)
    (g : Option (Option PyStr)) (a : Option (List PyStr))
    (hdir : ∀ fr ∈ osWalk fs,
      should_process_file (dirNameOf base fr.1) (relStrOf fr.1)
          (load_gitignore g) = true ∧
        ∀ s ∈ fr.1, containsChar '\n' s = false)
    (hfile : ∀ fr ∈ osWalk fs, ∀ nc ∈ fr.2,
      should_process_file nc.1 (relStrOf (fr.1 ++ [nc.1]))
          (load_gitignore g) = true ∧
        extAllows (extsOf a) nc.1 = true ∧
        containsChar '\n' nc.1 = false ∧ contentOk nc.2 = true) :
    writesOf (split_concatenated_file
        (some (concatenate_directory base fs g a)) out) =
      (allFilesOf fs).map fun pc => (pathJoin out pc.1, pyRstrip pc.2) := by
  rw [concat_eq_doc]
  rw [included_eq_all base fs _ _ (fun fr hfr => (hdir fr hfr).1)
    (fun fr hfr nc hnc =>
      ⟨(hfile fr hfr nc hnc).1, (hfile fr hfr nc hnc).2.1⟩)]
  apply split_doc_writes
  intro pc hpc
  obtain ⟨fr, hfr, nc, hnc, hcontent, hpath⟩ := mem_allFilesOf hpc
  rcases hfile fr hfr nc hnc with ⟨_, _, hnm, hok⟩
  rw [hcontent] at hok
  simp only [contentOk, Bool.and_eq_true, Bool.not_eq_true'] at hok
  refine ⟨?_, hok.1, hok.2⟩
  rw [hpath, relStrOf_append]
  apply joinSlash_no_nl
  intro s hs
  rw [List.mem_append] at hs
  rcases hs with hs | hs
  · exact (hdir fr hfr).2 s hs
  · simp only [List.mem_singleton] at hs
    rw [hs]
    exact hnm

/-- C1 witness: the amended round-trip theorem applied to a concrete tree with
a nested directory, a trailing-whitespace content and a trailing-newline
content. -/
theorem c1_roundtrip_witness :
    writesOf (split_concatenated_file
        (some (concatenate_directory "proj".toList
          (FS.dirE "sub".toList
            (FS.fileE "b.py".toList (some "bee  ".toList) FS.nilE)
            (FS.fileE "a.py".toList (some "alpha\n".toList) FS.nilE))
          none none))
        "out".toList)
      = [("out/a.py".toList, "alpha".toList),
         ("out/sub/b.py".toList, "bee".toList)] := by
  rw [c1_roundtrip_amended "proj".toList "out".toList
    (FS.dirE "sub".toList
      (FS.fileE "b.py".toList (some "bee  ".toList) FS.nilE)
      (FS.fileE "a.py".toList (some "alpha\n".toList) FS.nilE))
    none none (by decide) (by decide)]
  decide

end FileConcat

/-! ## Claim C2: directory filtering and (non-)pruning of the walk -/

namespace FileConcat

theorem splitChar_ne_nil (sep : Char) : ∀ s : PyStr, splitChar sep s ≠ [] := by
  intro s
  induction s with
  | nil => simp [splitChar]
  | cons c r ih =>
    unfold splitChar
    by_cases h : c = sep
    · simp [h]
    · rw [if_neg h]
      cases hsp : splitChar sep r with
      | nil => exact absurd hsp ih
      | cons a b => simp

theorem splitChar_build (rest : PyStr) :
    splitChar '/' ("build/".toList ++ rest) = "build".toList :: splitChar '/' rest := by
  show splitChar '/' ('b' :: 'u' :: 'i' :: 'l' :: 'd' :: '/' :: rest) = _
  cases hsp : splitChar '/' rest with
  | nil => exact absurd hsp (splitChar_ne_nil '/' rest)
  | cons a b => simp [splitChar, hsp]

/-- C2 counterexample: the walk does descend into a directory that fails the
filter predicate.  The hidden directory `.hidden` fails the predicate, yet the
file `a.py` in its non-hidden subdirectory `sub` — which matches no ignore
rule — appears in the output document, contradicting the claimed pruning. -/
theorem c2_prune_counterexample :
    concatenate_directory "proj".toList
        (FS.dirE ".hidden".toList
          (FS.dirE "sub".toList
            (FS.fileE "a.py".toList (some "x".toList) FS.nilE) FS.nilE)
          FS.nilE)
        none none
      = "\n// File: .hidden/sub/a.py\nx\n".toList := by decide

/-- C2 (amended): a directory failing the filter predicate has its direct
files skipped, but the walk still descends into its subdirectories.  Files
below a directory matched by a directory-only ignore pattern are nonetheless
excluded, because every such file's own relative path matches the pattern;
files in non-hidden subdirectories of a hidden directory that match no ignore
rule do appear in the output.  Concretely: a file directly inside a hidden
directory is excluded; a file below an ignored `build/` directory is excluded;
and every relative path under `build/` fails the filter predicate under the
ignore rule `build/`, whatever the file name. -/
theorem c2_filter_amended :
    concatenate_directory "proj".toList
        (FS.dirE ".hidden".toList
          (FS.fileE "a.py".toList (some "x".toList) FS.nilE) FS.nilE)
        none none = []
  ∧ concatenate_directory "proj".toList
        (FS.dirE "build".toList
          (FS.dirE "sub".toList
            (FS.fileE "x.py".toList (some "1".toList) FS.nilE) FS.nilE)
          FS.nilE)
        (some (some "build/".toList)) none = []
  ∧ ∀ (name rest : PyStr),
      should_process_file name ("build/".toList ++ rest)
        (load_gitignore (some (some "build/".toList))) = false := by
  refine ⟨by decide, by decide, ?_⟩
  intro name rest
  have hload : load_gitignore (some (some "build/".toList)) =
      [parseGitPattern "build/".toList] := by decide
  have hpat : parseGitPattern "build/".toList =
      { negated := false, dirOnly := true, anchored := false,
        segs := ["build".toList] } := by decide
  have hnl : anyNonLastSegMatch "build".toList
      ("build".toList :: splitChar '/' rest) = true := by
    cases hsp : splitChar '/' rest with
    | nil => exact absurd hsp (splitChar_ne_nil '/' rest)
    | cons s r' =>
      show (globMatch "build".toList "build".toList
        || anyNonLastSegMatch "build".toList (s :: r')) = true
      rw [show globMatch "build".toList "build".toList = true from by decide]
      exact Bool.true_or _
  have hmatch : matchFileStr (load_gitignore (some (some "build/".toList)))
      ("build/".toList ++ rest) = true := by
    rw [hload]
    unfold matchFileStr
    simp only [List.foldl]
    rw [splitChar_build, hpat]
    simp only [matchPattern]
    rw [hnl]
    simp
  unfold should_process_file
  rw [hmatch]
  simp

end FileConcat

/-! ## Claim C3: section order -/

namespace FileConcat

theorem pyStrLt_asymm : ∀ a b : PyStr, pyStrLt a b = true → pyStrLt b a = false := by
  intro a
  induction a with
  | nil =>
    intro b h
    cases b with
    | nil => simp [pyStrLt] at h
    | cons y bs => rfl
  | cons x as ih =>
    intro b h
    cases b with
    | nil => simp [pyStrLt] at h
    | cons y bs =>
      unfold pyStrLt at h ⊢
      by_cases hxy : x < y
      · rw [if_neg (lt_asymm hxy), if_pos hxy]
      · rw [if_neg hxy] at h
        by_cases hyx : y < x
        · rw [if_pos hyx] at h
          exact absurd h (by decide)
        · rw [if_neg hyx] at h
          rw [if_neg hyx, if_neg hxy]
          exact ih bs h

theorem pyStrLt_le_trans :
    ∀ a b c : PyStr, pyStrLt b a = false → pyStrLt c b = false →
      pyStrLt c a = false := by
  intro a
  induction a with
  | nil =>
    intro b c _ _
    cases c with
    | nil => rfl
    | cons z cs => rfl
  | cons x as ih =>
    intro b c h1 h2
    cases b with
    | nil => simp [pyStrLt] at h1
    | cons y bs =>
      cases c with
      | nil => simp [pyStrLt] at h2
      | cons z cs =>
        unfold pyStrLt at h1 h2 ⊢
        by_cases hyx : y < x
        · rw [if_pos hyx] at h1
          exact absurd h1 (by decide)
        · rw [if_neg hyx] at h1
          by_cases hzy : z < y
          · rw [if_pos hzy] at h2
            exact absurd h2 (by decide)
          · rw [if_neg hzy] at h2
            by_cases hzx : z < x
            · exact absurd (lt_of_le_of_lt (not_lt.mp hzy) hzx) hyx
            · rw [if_neg hzx]
              by_cases hxz : x < z
              · rw [if_pos hxz]
              · rw [if_neg hxz]
                have hzx' : z = x := le_antisymm (not_lt.mp hxz) (not_lt.mp hzx)
                by_cases hxy : x < y
                · exact absurd (show z < y from by rw [hzx']; exact hxy) hzy
                · rw [if_neg hxy] at h1
                  by_cases hyz : y < z
                  · exact absurd (show y < x from by rw [← hzx']; exact hyz) hyx
                  · rw [if_neg hyz] at h2
                    exact ih bs cs h1 h2

theorem pairwise_insertByName (x : PyStr × Option PyStr) :
    ∀ l, List.Pairwise (fun u v => pyStrLt v.1 u.1 = false) l →
      List.Pairwise (fun u v => pyStrLt v.1 u.1 = false) (insertByName x l) := by
  intro l
  induction l with
  | nil => intro _; simp [insertByName]
  | cons y ys ih =>
    intro h
    rw [List.pairwise_cons] at h
    unfold insertByName
    by_cases hlt : pyStrLt y.1 x.1 = true
    · rw [if_pos hlt, List.pairwise_cons]
      refine ⟨?_, ih h.2⟩
      intro z hz
      rw [(insertByName_perm x ys).mem_iff, List.mem_cons] at hz
      rcases hz with hz | hz
      · rw [hz]
        exact pyStrLt_asymm _ _ hlt
      · exact h.1 z hz
    · simp only [Bool.not_eq_true] at hlt
      rw [if_neg (by simp [hlt]), List.pairwise_cons]
      refine ⟨?_, List.pairwise_cons.mpr h⟩
      intro z hz
      rw [List.mem_cons] at hz
      rcases hz with hz | hz
      · rw [hz]
        exact hlt
      · exact pyStrLt_le_trans x.1 y.1 z.1 hlt (h.1 z hz)

theorem sortByName_sorted :
    ∀ l, List.Pairwise (fun u v => pyStrLt v.1 u.1 = false) (sortByName l) := by
  intro l
  induction l with
  | nil => simp [sortByName]
  | cons x xs ih => exact pairwise_insertByName x (sortByName xs) ih

/-- C3 counterexample: sections do not appear in lexicographic directory
order.  With the filesystem listing directory `b` before directory `a`,
`os.walk` — whose directory order the program never sorts — visits `b` first,
so the section for `b/f.py` precedes the one for `a/g.py`, while the claimed
lexicographic-by-directory order would put `a/g.py` first. -/
theorem c3_order_counterexample :
    concatenate_directory "proj".toList
        (FS.dirE "b".toList (FS.fileE "f.py".toList (some "1".toList) FS.nilE)
          (FS.dirE "a".toList (FS.fileE "g.py".toList (some "2".toList) FS.nilE)
            FS.nilE))
        none none
      = "\n// File: b/f.py\n1\n\n// File: a/g.py\n2\n".toList := by decide

/-- C3 (amended): sections appear in `os.walk` order — top-down, depth-first,
directories in the listing order the filesystem reports, which the program
does not sort — while file names inside each directory are iterated in sorted
order: `sorted(files)` is a permutation of the directory's file entries that
is ascending by name, and a directory listing its files as `b.py` before
`a.py` still produces the `a.py` section first. -/
theorem c3_order_amended :
    concatenate_directory "proj".toList
        (FS.fileE "b.py".toList (some "2".toList)
          (FS.fileE "a.py".toList (some "1".toList) FS.nilE)) none none
      = "\n// File: a.py\n1\n\n// File: b.py\n2\n".toList
  ∧ ∀ files : List (PyStr × Option PyStr),
      List.Pairwise (fun u v => pyStrLt v.1 u.1 = false) (sortByName files)
      ∧ List.Perm (sortByName files) files :=
  ⟨by decide, fun files => ⟨sortByName_sorted files, sortByName_perm files⟩⟩

end FileConcat

/-! ## Claims C4, C5, C6, C7, C9, C10 -/

namespace FileConcat

/-- C4 counterexample: passing an absent allow-list (`None`) does not disable
the extension filter.  With no `allowed_extensions` argument the file `b.txt`
is filtered out by the default allow-list, while passing the empty list `[]`
really does disable the filter and keeps it. -/
theorem c4_extensions_counterexample :
    concatenate_directory "proj".toList
        (FS.fileE "b.txt".toList (some "x".toList) FS.nilE) none none = []
  ∧ concatenate_directory "proj".toList
        (FS.fileE "b.txt".toList (some "x".toList) FS.nilE) none (some [])
      = "\n// File: b.txt\nx\n".toList := by
  constructor <;> decide

/-- C4 (amended): when the caller passes no `allowed_extensions` argument the
fixed default allow-list is applied (omitting the argument is the same as
passing the default list); passing an *empty* list disables the extension
filter entirely (every name passes); and the default list does filter — it
rejects `b.txt` and admits `a.py`. -/
theorem c4_extensions_amended :
    (∀ (base : PyStr) (fs : FS) (g : Option (Option PyStr)),
      concatenate_directory base fs g none =
        concatenate_directory base fs g (some DEFAULT_EXTENSIONS))
  ∧ (∀ name : PyStr, extAllows [] name = true)
  ∧ extAllows DEFAULT_EXTENSIONS "b.txt".toList = false
  ∧ extAllows DEFAULT_EXTENSIONS "a.py".toList = true := by
  refine ⟨fun base fs g => rfl, fun name => rfl, by decide, by decide⟩

/-- C5: `load_gitignore` falls back to the built-in default pattern list
exactly when the `.gitignore` file is absent (`none`), unreadable
(`some none`, which only logs a warning), or yields zero usable lines after
dropping blank lines and lines starting with `#`; when usable lines exist
they — and not the defaults — are compiled.  Under the defaults, files under
`.git/`, `node_modules/` and `__pycache__/` and files named `*.pyc` are
matched (hence excluded), while an ordinary source path is not. -/
theorem c5_load_gitignore :
    (∀ c : PyStr, gitignoreUsableLines c = [] →
      load_gitignore (some (some c)) = load_gitignore none)
  ∧ load_gitignore (some none) = load_gitignore none
  ∧ (∀ c : PyStr, gitignoreUsableLines c ≠ [] →
      load_gitignore (some (some c)) = (gitignoreUsableLines c).map parseGitPattern)
  ∧ load_gitignore none = DEFAULT_IGNORE.map parseGitPattern
  ∧ matchFileStr (load_gitignore none) ".git/config".toList = true
  ∧ matchFileStr (load_gitignore none) "node_modules/x/y.js".toList = true
  ∧ matchFileStr (load_gitignore none) "__pycache__/mod.pyc".toList = true
  ∧ matchFileStr (load_gitignore none) "a/b.pyc".toList = true
  ∧ matchFileStr (load_gitignore none) "src/main.py".toList = false := by
  refine ⟨?_, rfl, ?_, rfl, by decide, by decide, by decide, by decide, by decide⟩
  · intro c h
    simp [load_gitignore, h]
  · intro c h
    simp [load_gitignore, h]

/-- C5 witness: a `.gitignore` of only comment and blank lines falls back to
the defaults; one with a usable line compiles that line instead. -/
theorem c5_load_gitignore_witness :
    load_gitignore (some (some "# comment\n\n   \n".toList)) = load_gitignore none
  ∧ load_gitignore (some (some "docs/\n".toList)) =
      (gitignoreUsableLines "docs/\n".toList).map parseGitPattern :=
  ⟨c5_load_gitignore.1 _ (by decide), c5_load_gitignore.2.2.1 _ (by decide)⟩

/-- C6: a chunk whose text holds no newline is skipped: it produces no effect,
raises nothing, and the remaining chunks are processed unchanged; in
particular the document consisting of a marker immediately followed by
end-of-input produces no file at all. -/
theorem c6_malformed_chunk_skipped (out chunk : PyStr) (rest : List PyStr)
    (h : containsChar '\n' chunk = false) :
    processChunks out (chunk :: rest) = processChunks out rest
  ∧ split_concatenated_file (some "\n// File: foo".toList) out = [] := by
  constructor
  · simp only [processChunks, List.flatMap_cons, breakAtNewline_none h,
      List.nil_append]
  · show processChunks out (chunksOf "\n// File: foo".toList) = []
    rw [show chunksOf "\n// File: foo".toList = ["foo".toList] from by decide]
    simp only [processChunks, List.flatMap_cons, List.flatMap_nil,
      breakAtNewline_none (show containsChar '\n' "foo".toList = false from by decide),
      List.nil_append]

/-- C6 witness: the skip lemma at the concrete chunk `foo` of the
marker-at-end-of-input document. -/
theorem c6_malformed_chunk_witness :
    processChunks "out".toList ["foo".toList] = processChunks "out".toList []
  ∧ split_concatenated_file (some "\n// File: foo".toList) "out".toList = [] :=
  ⟨(c6_malformed_chunk_skipped "out".toList "foo".toList [] (by decide)).1,
   (c6_malformed_chunk_skipped "out".toList "foo".toList [] (by decide)).2⟩

/-- C7: when reading the input file of split fails, the splitter logs and
returns immediately: no directory is created and no file is written, whatever
the output directory. -/
theorem c7_read_failure_no_effects :
    ∀ out : PyStr, split_concatenated_file none out = [] := fun _ => rfl

/-- C9: with allow-list `['.py']` a directory holding exactly `a.py`, `b.js`
and `.hidden.py` produces a document with exactly the one section for `a.py`;
and `.hidden.py` is rejected by the hidden-name rule even under an empty
ignore-rule set, independently of the ignore rules. -/
theorem c9_extension_and_hidden :
    concatenate_directory "proj".toList
        (FS.fileE "a.py".toList (some "A".toList)
          (FS.fileE "b.js".toList (some "B".toList)
            (FS.fileE ".hidden.py".toList (some "H".toList) FS.nilE)))
        none (some [".py".toList])
      = "\n// File: a.py\nA\n".toList
  ∧ should_process_file ".hidden.py".toList ".hidden.py".toList [] = false := by
  constructor <;> decide

/-- C10: the splitter performs no containment check on the path taken from a
marker line: the write target of a chunk is the plain `pathlib` join of the
output directory with that path, whatever it holds.  Joining `out` with
`../../etc/passwd` yields `out/../../etc/passwd`; lexically resolving `..`
in `out/../secret` lands on `secret`, outside `out`; and an absolute marker
path replaces the output directory entirely. -/
theorem c10_path_traversal (out p c : PyStr)
    (hp : containsChar '\n' p = false)
    (hc : hasSubB MARKER (p ++ '\n' :: c) = false) :
    writesOf (split_concatenated_file (some (MARKER ++ (p ++ '\n' :: c))) out)
      = [(pathJoin out p, pyRstrip c)]
  ∧ pathJoin "out".toList "../../etc/passwd".toList = "out/../../etc/passwd".toList
  ∧ resolvePath (pathJoin "out".toList "../secret".toList) = ["secret".toList]
  ∧ pathJoin "out".toList "/etc/passwd".toList = "/etc/passwd".toList := by
  refine ⟨?_, by decide, by decide, by decide⟩
  show writesOf (processChunks out (chunksOf (MARKER ++ (p ++ '\n' :: c)))) = _
  have hch : chunksOf (MARKER ++ (p ++ '\n' :: c)) = [p ++ '\n' :: c] := by
    unfold chunksOf
    rw [splitMarker_marker, splitMarker_nosub hc]
    simp [pyStrip, pyRstrip, pyLstrip]
  rw [hch]
  simp only [processChunks, List.flatMap_cons, List.flatMap_nil,
    breakAtNewline_chunk hp, List.append_nil]
  rfl

/-- C10 witness: the traversal theorem at the marker path `../../x`. -/
theorem c10_path_traversal_witness :
    writesOf (split_concatenated_file
        (some (MARKER ++ ("../../x".toList ++ '\n' :: "y".toList))) "out".toList)
      = [(pathJoin "out".toList "../../x".toList, pyRstrip "y".toList)] :=
  (c10_path_traversal "out".toList "../../x".toList "y".toList
    (by decide) (by decide)).1

end FileConcat

/-! ## Claim C8: error handling in the concatenator -/

namespace FileConcat

theorem fileOutput_none (spec : List GitPattern) (exts : List PyStr)
    (rel : List PyStr) (nc : PyStr × Option PyStr) (h : nc.2 = none) :
    fileOutput spec exts rel nc = [] := by
  unfold fileOutput
  rw [h]
  split
  · rfl
  · split
    · rfl
    · rfl

theorem filesOf_removeUnreadable : ∀ fs : FS,
    filesOf (removeUnreadable fs) =
      (filesOf fs).filter fun nc => nc.2.isSome := by
  intro fs
  induction fs with
  | nilE => rfl
  | fileE n c r ih =>
    cases c with
    | none => simp [removeUnreadable, filesOf, ih, List.filter]
    | some c' => simp [removeUnreadable, filesOf, ih, List.filter]
  | dirE n sub r ihs ihr => simp [removeUnreadable, filesOf, ihr]

theorem walkEntries_removeUnreadable : ∀ (fs : FS) (rel : List PyStr),
    walkEntries rel (removeUnreadable fs) =
      (walkEntries rel fs).map
        fun fr => (fr.1, fr.2.filter fun nc => nc.2.isSome) := by
  intro fs
  induction fs with
  | nilE => intro rel; rfl
  | fileE n c r ih =>
    intro rel
    cases c with
    | none => simp [removeUnreadable, walkEntries, ih]
    | some c' => simp [removeUnreadable, walkEntries, ih]
  | dirE n sub r ihs ihr =>
    intro rel
    simp [removeUnreadable, walkEntries, ihs, ihr, filesOf_removeUnreadable]

theorem insertByName_front (x : PyStr × Option PyStr) :
    ∀ l, (∀ z ∈ l, pyStrLt z.1 x.1 = false) → insertByName x l = x :: l := by
  intro l h
  cases l with
  | nil => rfl
  | cons z rest =>
    rw [show insertByName x (z :: rest) =
        if pyStrLt z.1 x.1 then z :: insertByName x rest else x :: z :: rest from rfl]
    rw [if_neg (by simp [h z (List.mem_cons_self z rest)])]

theorem filter_insertByName (p : PyStr × Option PyStr → Bool)
    (x : PyStr × Option PyStr) :
    ∀ l, List.Pairwise (fun u v => pyStrLt v.1 u.1 = false) l →
      List.filter p (insertByName x l) =
        if p x then insertByName x (List.filter p l) else List.filter p l := by
  intro l
  induction l with
  | nil =>
    intro _
    cases hpx : p x <;> simp [insertByName, List.filter_cons, hpx]
  | cons y ys ih =>
    intro hsorted
    rw [List.pairwise_cons] at hsorted
    by_cases hlt : pyStrLt y.1 x.1 = true
    · have hins : insertByName x (y :: ys) = y :: insertByName x ys := by
        rw [show insertByName x (y :: ys) =
          if pyStrLt y.1 x.1 then y :: insertByName x ys else x :: y :: ys from rfl]
        rw [if_pos hlt]
      rw [hins, List.filter_cons, List.filter_cons, ih hsorted.2]
      cases hpy : p y with
      | true =>
        cases hpx : p x with
        | true =>
          have hins2 : insertByName x (y :: List.filter p ys) =
              y :: insertByName x (List.filter p ys) := by
            rw [show insertByName x (y :: List.filter p ys) =
              if pyStrLt y.1 x.1 then y :: insertByName x (List.filter p ys)
              else x :: y :: List.filter p ys from rfl]
            rw [if_pos hlt]
          simp [hins2]
        | false => simp
      | false =>
        cases hpx : p x <;> simp
    · simp only [Bool.not_eq_true] at hlt
      have hins : insertByName x (y :: ys) = x :: y :: ys := by
        rw [show insertByName x (y :: ys) =
          if pyStrLt y.1 x.1 then y :: insertByName x ys else x :: y :: ys from rfl]
        rw [if_neg (by simp [hlt])]
      rw [hins, List.filter_cons]
      cases hpx : p x with
      | false => simp
      | true =>
        have hfront : insertByName x (List.filter p (y :: ys)) =
            x :: List.filter p (y :: ys) := by
          apply insertByName_front
          intro z hz
          rw [List.mem_filter, List.mem_cons] at hz
          rcases hz.1 with hzy | hzy
          · rw [hzy]
            exact hlt
          · exact pyStrLt_le_trans x.1 y.1 z.1 hlt (hsorted.1 z hzy)
        simp [hfront]

theorem sortByName_filter (p : PyStr × Option PyStr → Bool) :
    ∀ l, sortByName (l.filter p) = (sortByName l).filter p := by
  intro l
  induction l with
  | nil => rfl
  | cons x xs ih =>
    have hs : sortByName (x :: xs) = insertByName x (sortByName xs) := rfl
    rw [hs, List.filter_cons,
      filter_insertByName p x (sortByName xs) (sortByName_sorted xs)]
    cases hpx : p x with
    | true =>
      have hsf : sortByName (x :: List.filter p xs) =
          insertByName x (sortByName (List.filter p xs)) := rfl
      simp [hsf, ih]
    | false => simp [ih]

theorem flatMap_filter_isSome (spec : List GitPattern) (exts : List PyStr)
    (rel : List PyStr) :
    ∀ L : List (PyStr × Option PyStr),
      (L.filter fun nc => nc.2.isSome).flatMap (fileOutput spec exts rel) =
        L.flatMap (fileOutput spec exts rel) := by
  intro L
  induction L with
  | nil => rfl
  | cons nc L' ih =>
    cases hnc : nc.2 with
    | none =>
      simp only [List.filter, hnc, Option.isSome_none, List.flatMap_cons]
      rw [ih, fileOutput_none spec exts rel nc hnc, List.nil_append]
    | some c =>
      simp only [List.filter, hnc, Option.isSome_some, List.flatMap_cons]
      rw [ih]

/-- C8: `concatenate_directory` always returns the full in-memory document: a
failure of the optional output-file write is only logged and changes neither
the returned document nor raises (the returned document of
`concatenate_directory_run` does not depend on the write outcome), and a
per-file read failure skips only that file — removing every unreadable file
from the tree leaves the produced document unchanged. -/
theorem c8_error_handling :
    (∀ (base : PyStr) (fs : FS) (g : Option (Option PyStr))
        (a : Option (List PyStr)) (output_file : Option PyStr) (writeOk : Bool),
      (concatenate_directory_run base fs g a output_file writeOk).1 =
        concatenate_directory base fs g a)
  ∧ (∀ (base : PyStr) (fs : FS) (g : Option (Option PyStr))
        (a : Option (List PyStr)),
      concatenate_directory base (removeUnreadable fs) g a =
        concatenate_directory base fs g a) := by
  refine ⟨fun _ _ _ _ _ _ => rfl, ?_⟩
  intro base fs g a
  unfold concatenate_directory
  have hw : osWalk (removeUnreadable fs) =
      (osWalk fs).map fun fr => (fr.1, fr.2.filter fun nc => nc.2.isSome) := by
    unfold osWalk
    rw [walkEntries_removeUnreadable, filesOf_removeUnreadable]
    simp
  rw [hw, List.flatMap_map]
  apply List.flatMap_congr
  intro fr _
  show frameOutput (load_gitignore g) (extsOf a) base
      (fr.1, fr.2.filter fun nc => nc.2.isSome) = _
  unfold frameOutput
  by_cases hd : should_process_file (dirNameOf base fr.1) (relStrOf fr.1)
      (load_gitignore g) = true
  · simp only [hd, Bool.not_true, Bool.false_eq_true, if_false]
    rw [sortByName_filter, flatMap_filter_isSome]
  · simp only [Bool.not_eq_true] at hd
    simp [hd]

end FileConcat
